import Mathlib

/-!
Verification of the consistent-hashing core of `dingqing/consistent-hash`
(`core/algorithm.go`), shallowly embedded in Lean.

Modelling conventions:
* Go `uint64` hash values are `Nat` (the Go type guarantees `< 2^64`; no
  arithmetic is performed on hash values other than comparison, so no
  masking is needed outside the hash function itself).
* Go `int64` counters (`totalLoad`, `LoadBound`) are `Int`; the claims never
  drive them anywhere near overflow, so wrap-around is not modelled.
* Go `int64` division truncates toward zero: modelled by `Int.tdiv`.
* Go maps are association lists (`List (key × value)`); map assignment
  replaces an existing binding in place or appends a fresh one, map read of
  a missing key yields the zero value, exactly as in Go.
* Fallible behaviour is explicit: `Option` layers mark Go runtime panics
  (nil-pointer dereference, index out of range, integer division by zero),
  and the unbounded `for` loop of `GetHostCapacious` takes a fuel argument,
  with a dedicated `diverges` marker when the fuel runs out.
* The source file's constructor and struct use inconsistent field names
  (`hosts`/`hostMap`, `virt2host`/`replicaHostMap`, `ring`/
  `sortedHostsHashSet`, `hostReplicaFormat`/`hostReplicaNum`); one consistent
  scheme (`hosts`, `virt2host`, `ring`) is used here, as the repository's
  documentation prescribes.
* The mutex/atomic operations guard concurrent access only; the sequential
  semantics modelled here is the code with those wrappers erased.
-/

namespace ConsistentHashing

/-! ### Association-list maps (the embedding of Go maps) -/

/-- Read `m[k]` (absent key gives `none`; callers needing Go's zero value
use `(lookupA m k).getD z`). -/
def lookupA {β : Type} (m : List (String × β)) (k : String) : Option β :=
  match m with
  | [] => none
  | (k', v) :: rest => if k = k' then some v else lookupA rest k

/-- Go map assignment `m[k] = v`: replace the binding in place, or append. -/
def insertA {β : Type} (m : List (String × β)) (k : String) (v : β) :
    List (String × β) :=
  match m with
  | [] => [(k, v)]
  | (k', v') :: rest =>
    if k = k' then (k', v) :: rest else (k', v') :: insertA rest k v

/-- Go `delete(m, k)`. -/
def eraseA {β : Type} (m : List (String × β)) (k : String) :
    List (String × β) :=
  match m with
  | [] => []
  | (k', v') :: rest =>
    if k = k' then rest else (k', v') :: eraseA rest k

/-- Same as `lookupA` but keyed by `Nat` (for the hash → host map). -/
def lookupN {β : Type} (m : List (Nat × β)) (k : Nat) : Option β :=
  match m with
  | [] => none
  | (k', v) :: rest => if k = k' then some v else lookupN rest k

/-- Same as `insertA` but keyed by `Nat` (for the hash → host map). -/
def insertN {β : Type} (m : List (Nat × β)) (k : Nat) (v : β) :
    List (Nat × β) :=
  match m with
  | [] => [(k, v)]
  | (k', v') :: rest =>
    if k = k' then (k', v) :: rest else (k', v') :: insertN rest k v

/-! ### SHA-512 (FIPS 180-4), used by `defaultHashFunc`

`crypto/sha512` is standard-library code; it is embedded here from the
published algorithm so that `defaultHashFunc` is a concrete executable
function. 64-bit words are `Nat` reduced mod `2^64`. -/

/-- Truncate to a 64-bit word. -/
def w64 (x : Nat) : Nat := x % 2 ^ 64

/-- Rotate a 64-bit word right by `n` (`0 < n < 64`). -/
def rotr64 (n x : Nat) : Nat := w64 ((x >>> n) ||| (x <<< (64 - n)))

/-- Bitwise complement of a 64-bit word. -/
def not64 (x : Nat) : Nat := x ^^^ 0xFFFFFFFFFFFFFFFF

/-- SHA-512 `Ch` function. -/
def sha2Ch (x y z : Nat) : Nat := (x &&& y) ^^^ (not64 x &&& z)

/-- SHA-512 `Maj` function. -/
def sha2Maj (x y z : Nat) : Nat := (x &&& y) ^^^ (x &&& z) ^^^ (y &&& z)

/-- SHA-512 `Σ₀`. -/
def bigSigma0 (x : Nat) : Nat := rotr64 28 x ^^^ rotr64 34 x ^^^ rotr64 39 x

/-- SHA-512 `Σ₁`. -/
def bigSigma1 (x : Nat) : Nat := rotr64 14 x ^^^ rotr64 18 x ^^^ rotr64 41 x

/-- SHA-512 `σ₀`. -/
def smallSigma0 (x : Nat) : Nat := rotr64 1 x ^^^ rotr64 8 x ^^^ (x >>> 7)

/-- SHA-512 `σ₁`. -/
def smallSigma1 (x : Nat) : Nat := rotr64 19 x ^^^ rotr64 61 x ^^^ (x >>> 6)

/-- A 64-bit word from its high and low 32-bit halves. -/
def hl (hi lo : Nat) : Nat := hi * 2 ^ 32 + lo

/-- The 80 SHA-512 round constants (FIPS 180-4 §4.2.3), each written as its
two 32-bit halves. -/
def sha512K : List Nat :=
  [hl 0x428a2f98 0xd728ae22, hl 0x71374491 0x23ef65cd,
   hl 0xb5c0fbcf 0xec4d3b2f, hl 0xe9b5dba5 0x8189dbbc,
   hl 0x3956c25b 0xf348b538, hl 0x59f111f1 0xb605d019,
   hl 0x923f82a4 0xaf194f9b, hl 0xab1c5ed5 0xda6d8118,
   hl 0xd807aa98 0xa3030242, hl 0x12835b01 0x45706fbe,
   hl 0x243185be 0x4ee4b28c, hl 0x550c7dc3 0xd5ffb4e2,
   hl 0x72be5d74 0xf27b896f, hl 0x80deb1fe 0x3b1696b1,
   hl 0x9bdc06a7 0x25c71235, hl 0xc19bf174 0xcf692694,
   hl 0xe49b69c1 0x9ef14ad2, hl 0xefbe4786 0x384f25e3,
   hl 0x0fc19dc6 0x8b8cd5b5, hl 0x240ca1cc 0x77ac9c65,
   hl 0x2de92c6f 0x592b0275, hl 0x4a7484aa 0x6ea6e483,
   hl 0x5cb0a9dc 0xbd41fbd4, hl 0x76f988da 0x831153b5,
   hl 0x983e5152 0xee66dfab, hl 0xa831c66d 0x2db43210,
   hl 0xb00327c8 0x98fb213f, hl 0xbf597fc7 0xbeef0ee4,
   hl 0xc6e00bf3 0x3da88fc2, hl 0xd5a79147 0x930aa725,
   hl 0x06ca6351 0xe003826f, hl 0x14292967 0x0a0e6e70,
   hl 0x27b70a85 0x46d22ffc, hl 0x2e1b2138 0x5c26c926,
   hl 0x4d2c6dfc 0x5ac42aed, hl 0x53380d13 0x9d95b3df,
   hl 0x650a7354 0x8baf63de, hl 0x766a0abb 0x3c77b2a8,
   hl 0x81c2c92e 0x47edaee6, hl 0x92722c85 0x1482353b,
   hl 0xa2bfe8a1 0x4cf10364, hl 0xa81a664b 0xbc423001,
   hl 0xc24b8b70 0xd0f89791, hl 0xc76c51a3 0x0654be30,
   hl 0xd192e819 0xd6ef5218, hl 0xd6990624 0x5565a910,
   hl 0xf40e3585 0x5771202a, hl 0x106aa070 0x32bbd1b8,
   hl 0x19a4c116 0xb8d2d0c8, hl 0x1e376c08 0x5141ab53,
   hl 0x2748774c 0xdf8eeb99, hl 0x34b0bcb5 0xe19b48a8,
   hl 0x391c0cb3 0xc5c95a63, hl 0x4ed8aa4a 0xe3418acb,
   hl 0x5b9cca4f 0x7763e373, hl 0x682e6ff3 0xd6b2b8a3,
   hl 0x748f82ee 0x5defb2fc, hl 0x78a5636f 0x43172f60,
   hl 0x84c87814 0xa1f0ab72, hl 0x8cc70208 0x1a6439ec,
   hl 0x90befffa 0x23631e28, hl 0xa4506ceb 0xde82bde9,
   hl 0xbef9a3f7 0xb2c67915, hl 0xc67178f2 0xe372532b,
   hl 0xca273ece 0xea26619c, hl 0xd186b8c7 0x21c0c207,
   hl 0xeada7dd6 0xcde0eb1e, hl 0xf57d4f7f 0xee6ed178,
   hl 0x06f067aa 0x72176fba, hl 0x0a637dc5 0xa2c898a6,
   hl 0x113f9804 0xbef90dae, hl 0x1b710b35 0x131c471b,
   hl 0x28db77f5 0x23047d84, hl 0x32caab7b 0x40c72493,
   hl 0x3c9ebe0a 0x15c9bebc, hl 0x431d67c4 0x9c100d4c,
   hl 0x4cc5d4be 0xcb3e42b6, hl 0x597f299c 0xfc657e2a,
   hl 0x5fcb6fab 0x3ad6faec, hl 0x6c44198c 0x4a475817]

/-- The SHA-512 initial hash state (FIPS 180-4 §5.3.5), each word written
as its two 32-bit halves. -/
def sha512H0 : List Nat :=
  [hl 0x6a09e667 0xf3bcc908, hl 0xbb67ae85 0x84caa73b,
   hl 0x3c6ef372 0xfe94f82b, hl 0xa54ff53a 0x5f1d36f1,
   hl 0x510e527f 0xade682d1, hl 0x9b05688c 0x2b3e6c1f,
   hl 0x1f83d9ab 0xfb41bd6b, hl 0x5be0cd19 0x137e2179]

/-- Big-endian bytes of the 128-bit message-length field (length in bits). -/
def lenBytes128 (bits : Nat) : List Nat :=
  (List.range 16).map fun i => (bits >>> (8 * (15 - i))) % 256

/-- SHA-512 padding: append `0x80`, zeros, and the 128-bit bit length, so
the total byte length is a multiple of 128. -/
def sha512pad (msg : List Nat) : List Nat :=
  let l := msg.length
  let z := (128 - (l + 17) % 128) % 128
  msg ++ [0x80] ++ List.replicate z 0 ++ lenBytes128 (8 * l)

/-- Split a byte list into 128-byte blocks (structural recursion on a
counter that starts at the list length, which always suffices). -/
def blocks128Aux : Nat → List Nat → List (List Nat)
  | 0, _ => []
  | _, [] => []
  | fuel + 1, l => l.take 128 :: blocks128Aux fuel (l.drop 128)

/-- Split a byte list into 128-byte blocks. -/
def blocks128 (l : List Nat) : List (List Nat) := blocks128Aux l.length l

/-- The sixteen big-endian 64-bit words of one 128-byte block. -/
def wordsOfBlock (block : List Nat) : List Nat :=
  (List.range 16).map fun i =>
    (List.range 8).foldl (fun a j => a * 256 + block.getD (8 * i + j) 0) 0

/-- Extend sixteen message words to the eighty-word schedule. -/
def msgSchedule (w16 : List Nat) : List Nat :=
  (List.range 64).foldl
    (fun ws _ =>
      let n := ws.length
      ws ++ [w64 (smallSigma1 (ws.getD (n - 2) 0) + ws.getD (n - 7) 0 +
                  smallSigma0 (ws.getD (n - 15) 0) + ws.getD (n - 16) 0)])
    w16

/-- One SHA-512 compression step (round `t`). -/
def sha512Round (ws : List Nat) (st : List Nat) (t : Nat) : List Nat :=
  match st with
  | [a, b, c, d, e, f, g, h] =>
    let t1 := w64 (h + bigSigma1 e + sha2Ch e f g + sha512K.getD t 0 +
                   ws.getD t 0)
    let t2 := w64 (bigSigma0 a + sha2Maj a b c)
    [w64 (t1 + t2), a, b, c, w64 (d + t1), e, f, g]
  | st => st

/-- Compress one 128-byte block into the running hash state. -/
def sha512Compress (hs : List Nat) (block : List Nat) : List Nat :=
  let ws := msgSchedule (wordsOfBlock block)
  let st := (List.range 80).foldl (sha512Round ws) hs
  List.zipWith (fun x y => w64 (x + y)) hs st

/-- Big-endian bytes of one 64-bit word. -/
def bytesBE8 (x : Nat) : List Nat :=
  (List.range 8).map fun i => (x >>> (8 * (7 - i))) % 256

/-- The 64-byte SHA-512 digest of a byte string. -/
def sha512Bytes (msg : List Nat) : List Nat :=
  (((blocks128 (sha512pad msg)).foldl sha512Compress sha512H0).map
    bytesBE8).foldl (· ++ ·) []

/-- The UTF-8 encoding of one code point. -/
def utf8Enc (c : Nat) : List Nat :=
  if c < 0x80 then [c]
  else if c < 0x800 then
    [0xC0 ||| (c >>> 6), 0x80 ||| (c &&& 0x3F)]
  else if c < 0x10000 then
    [0xE0 ||| (c >>> 12), 0x80 ||| ((c >>> 6) &&& 0x3F), 0x80 ||| (c &&& 0x3F)]
  else
    [0xF0 ||| (c >>> 18), 0x80 ||| ((c >>> 12) &&& 0x3F),
     0x80 ||| ((c >>> 6) &&& 0x3F), 0x80 ||| (c &&& 0x3F)]

/-- UTF-8 bytes of a string (what Go's `[]byte(key)` yields). -/
def strBytes (s : String) : List Nat :=
  (s.data.map (fun ch => utf8Enc ch.toNat)).foldl (· ++ ·) []

/-- A little-endian byte list read as an unsigned integer. -/
def uint64LE (bs : List Nat) : Nat :=
  bs.reverse.foldl (fun a b => a * 256 + b) 0

/-- `defaultHashFunc` from `core/algorithm.go`: the first 8 bytes of the
SHA-512 digest of the key, read as a little-endian `uint64`. -/
def defaultHashFunc (key : String) : Nat :=
  uint64LE ((sha512Bytes (strBytes key)).take 8)

/-! ### Data model -/

/-- `core.Host`. -/
structure Host where
  name : String
  loadBound : Int
deriving DecidableEq, Repr

/-- The two sentinel errors of `core/error.go`. -/
inductive Err where
  | hostAlreadyExists
  | hostNotFound
deriving DecidableEq, Repr

/-- `core.Consistent` (mutex erased; field names follow the repository's
documented scheme, see the header comment). -/
structure Consistent where
  replicaNum : Int
  totalLoad : Int
  hashFunc : String → Nat
  hosts : List (String × Host)
  virt2host : List (Nat × String)
  ring : List Nat

/-- Result of running a piece of Go code that may panic or loop forever. -/
inductive RunRes (α : Type) where
  | panics : RunRes α
  | diverges : RunRes α
  | ret : α → RunRes α

/-- `fmt.Sprintf(hostReplicaFormat, hostName, i)` with format `%s%d`. -/
def hostReplicaKey (hostName : String) (i : Nat) : String :=
  hostName ++ toString i

/-- `core.New`: clamp a non-positive replica count to the default 10, a nil
hash function to `defaultHashFunc`, and start empty. -/
def New (replicaNum : Int) (hashFunc : Option (String → Nat)) : Consistent :=
  { replicaNum := if replicaNum ≤ 0 then 10 else replicaNum
    totalLoad := 0
    hashFunc := hashFunc.getD defaultHashFunc
    hosts := []
    virt2host := []
    ring := [] }

/-- `Consistent.RegisterHost`: reject duplicates, otherwise add the host,
insert its `replicaNum` virtual-node hashes into the hash → host map,
append them to the ring and re-sort the ring (Go sorts with `sort.Slice`
and `<`; over `Nat` every sorted permutation is the same list, so
`insertionSort` is an exact model). -/
def RegisterHost (c : Consistent) (hostName : String) :
    Except Err Consistent :=
  if (lookupA c.hosts hostName).isSome then .error .hostAlreadyExists
  else
    let c := { c with
      hosts := insertA c.hosts hostName { name := hostName, loadBound := 0 } }
    let c := (List.range c.replicaNum.toNat).foldl
      (fun c i =>
        let hashedIdx := c.hashFunc (hostReplicaKey hostName i)
        { c with
          virt2host := insertN c.virt2host hashedIdx hostName
          ring := c.ring ++ [hashedIdx] })
      c
    .ok { c with ring := c.ring.insertionSort (· ≤ ·) }

/-- The binary-search loop of `Consistent.delHashIndex`, verbatim except for
the structural-recursion counter, which starts at the interval size
`(r + 1 - l)` and always suffices since the interval at least halves; when it
reaches 0 the interval is empty and the loop would have exited with `-1`
anyway. `l` and `r` are nonnegative whenever the division runs, where
Go's truncating and Lean's division agree. -/
def delSearchAux (ring : List Nat) (val : Nat) : Nat → Int → Int → Int
  | 0, _, _ => -1
  | fuel + 1, l, r =>
    if l ≤ r then
      let m := (l + r) / 2
      let x := ring.getD m.toNat 0
      if x = val then m
      else if x < val then delSearchAux ring val fuel (m + 1) r
      else delSearchAux ring val fuel l (m - 1)
    else -1

/-- The binary search of `Consistent.delHashIndex`: find the index of `val`
in the sorted ring, or `-1`. -/
def delSearch (ring : List Nat) (val : Nat) (l r : Int) : Int :=
  delSearchAux ring val (r + 1 - l).toNat l r

/-- `Consistent.delHashIndex`: splice `val` out of the ring if the binary
search finds it. Note: the source removes the hash from the ring only, not
from the hash → host map. -/
def delHashIndex (c : Consistent) (val : Nat) : Consistent :=
  let idx := delSearch c.ring val 0 ((c.ring.length : Int) - 1)
  if idx = -1 then c
  else { c with
    ring := c.ring.take idx.toNat ++ c.ring.drop (idx.toNat + 1) }

/-- `Consistent.UnregisterHost`: reject unknown hosts, otherwise drop the
host and splice its recomputed virtual-node hashes out of the ring. -/
def UnregisterHost (c : Consistent) (hostName : String) :
    Except Err Consistent :=
  if (lookupA c.hosts hostName).isNone then .error .hostNotFound
  else
    let c := { c with hosts := eraseA c.hosts hostName }
    .ok ((List.range c.replicaNum.toNat).foldl
      (fun c i => delHashIndex c (c.hashFunc (hostReplicaKey hostName i)))
      c)

/-- The loop of the stdlib binary search `sort.Search`, verbatim except for
the structural-recursion counter, which starts at the interval size `j - i`
and always suffices since the interval at least halves; when it reaches 0
the interval is empty and the loop would have exited with `i` anyway. -/
def sortSearchAux (f : Nat → Bool) : Nat → Nat → Nat → Nat
  | 0, i, _ => i
  | fuel + 1, i, j =>
    if i < j then
      let m := (i + j) / 2
      if f m then sortSearchAux f fuel i m else sortSearchAux f fuel (m + 1) j
    else i

/-- The stdlib binary search `sort.Search`: smallest index in `[i, j)`
satisfying the (monotone) predicate, else `j`. -/
def sortSearch (f : Nat → Bool) (i j : Nat) : Nat :=
  sortSearchAux f (j - i) i j

/-- `Consistent.searchKey`: smallest ring index whose hash is ≥ `key`,
wrapped to 0 when there is none. -/
def searchKey (c : Consistent) (key : Nat) : Nat :=
  let idx := sortSearch (fun i => decide (key ≤ c.ring.getD i 0)) 0
    c.ring.length
  if idx ≥ c.ring.length then 0 else idx

/-- `Consistent.GetHost`. There is no empty-ring guard in the source:
`none` models the out-of-range panic of `c.ring[idx]` on an empty ring.
The Go error result is always nil, so no error channel appears here. -/
def GetHost (c : Consistent) (key : String) : Option String :=
  let hashedKey := c.hashFunc key
  let idx := searchKey c hashedKey
  (c.ring.get? idx).map fun hv => (lookupN c.virt2host hv).getD ""

/-- The capacity threshold computed inside `checkLoadCapacity` and
`MaxLoad`: `math.Ceil(float64(q) * 1.25)` for an `int64` quotient `q`
(already clamped to 1 when zero). The float arithmetic is exact for
`|q| < 2^51`, so the rational ceiling `⌈5q/4⌉ = ⌊(5q+3)/4⌋` is an exact
model in the claims' range. -/
def ceil125 (q : Int) : Int := (5 * q + 3).fdiv 4

/-- The capacity threshold of `checkLoadCapacity`: the average computed
with *integer* division `(totalLoad+1) / int64(len(hosts))` (Go truncating
division, `Int.tdiv`), clamped to 1 if it is 0, then `ceil(avg * 1.25)`. -/
def goCap (total n : Int) : Int :=
  let avg := Int.tdiv (total + 1) n
  ceil125 (if avg = 0 then 1 else avg)

/-- `Consistent.checkLoadCapacity`, verbatim: clamp a negative `totalLoad`
to 0 (a field write), compute the `goCap` threshold, and accept the
candidate when `loadBound + 1 ≤ cap`. `none` models the division-by-zero
panic when no host is registered. -/
def checkLoadCapacity (c : Consistent) (host : String) :
    Option (Consistent × Except Err Bool) :=
  let c := if c.totalLoad < 0 then { c with totalLoad := 0 } else c
  if c.hosts.length = 0 then none
  else
    let cap := goCap c.totalLoad c.hosts.length
    match lookupA c.hosts host with
    | none => some (c, .error .hostNotFound)
    | some cand => some (c, .ok (decide (cand.loadBound + 1 ≤ cap)))

/-- The unbounded `for` loop of `GetHostCapacious`. The source has no step
cap: `fuel` is the number of iterations this model is allowed to observe,
and `diverges` reports that the loop was still running after that many.
The wrap bound is `len(virt2host)`, exactly as in the source (not the ring
length); `panics` models the `c.ring[i]` index-out-of-range panic. -/
def capaciousLoop (fuel : Nat) (c : Consistent) (i : Nat) :
    RunRes (Consistent × Except Err String) :=
  match fuel with
  | 0 => .diverges
  | fuel + 1 =>
    match c.ring.get? i with
    | none => .panics
    | some hv =>
      let host := (lookupN c.virt2host hv).getD ""
      match checkLoadCapacity c host with
      | none => .panics
      | some (c', res) =>
        match res with
        | .error e => .ret (c', .error e)
        | .ok true => .ret (c', .ok host)
        | .ok false =>
          let i' := i + 1
          capaciousLoop fuel c' (if i' ≥ c'.virt2host.length then 0 else i')

/-- `Consistent.GetHostCapacious`: guard on an empty hash → host map, then
walk forward from the key's ring position. -/
def GetHostCapacious (c : Consistent) (key : String) (fuel : Nat) :
    RunRes (Consistent × Except Err String) :=
  if c.virt2host.length = 0 then .ret (c, .error .hostNotFound)
  else capaciousLoop fuel c (searchKey c (c.hashFunc key))

/-- `Consistent.Inc`, verbatim: the source dereferences
`c.hosts[hostName].LoadBound` without an existence check, so an
unregistered name is a nil-pointer dereference panic (`none`). -/
def Inc (c : Consistent) (hostName : String) : Option Consistent :=
  match lookupA c.hosts hostName with
  | none => none
  | some h => some { c with
      hosts := insertA c.hosts hostName { h with loadBound := h.loadBound + 1 }
      totalLoad := c.totalLoad + 1 }

/-- `Consistent.Done`: a no-op for unknown hosts, otherwise decrement the
host's counter and `totalLoad`. -/
def Done (c : Consistent) (host : String) : Consistent :=
  match lookupA c.hosts host with
  | none => c
  | some h =>
    { c with
      hosts := insertA c.hosts host { h with loadBound := h.loadBound - 1 }
      totalLoad := c.totalLoad - 1 }

/-- `Consistent.Hosts` as a state transformer: the returned state is the
receiver, untouched (the source performs no field write). -/
def Hosts (c : Consistent) : List String × Consistent :=
  (c.hosts.map Prod.fst, c)

/-- `Consistent.GetLoads` as a state transformer, like `Hosts`. -/
def GetLoads (c : Consistent) : List (String × Int) × Consistent :=
  (c.hosts.map (fun p => (p.1, p.2.loadBound)), c)

/-- `Consistent.MaxLoad`, verbatim: when `totalLoad` is 0 the source
*writes* `c.totalLoad = 1` into the receiver before computing the
threshold with truncating division `totalLoad / int64(len(hosts))`.
A `none` value is the division-by-zero panic with no host registered
(the field write has already happened by then). -/
def MaxLoad (c : Consistent) : Option Int × Consistent :=
  let c := if c.totalLoad = 0 then { c with totalLoad := 1 } else c
  if c.hosts.length = 0 then (none, c)
  else
    let avg := Int.tdiv c.totalLoad c.hosts.length
    let avg := if avg = 0 then 1 else avg
    (some (ceil125 avg), c)

/-! ### Operation sequences -/

/-- One caller-visible mutating operation. -/
inductive Op where
  | reg (name : String)
  | unreg (name : String)
  | inc (name : String)
  | done (name : String)

/-- Apply one operation; register/unregister errors leave the state
unchanged (as the source does), an `Inc` panic aborts the run. -/
def applyOp (c : Consistent) : Op → Option Consistent
  | .reg n =>
    match RegisterHost c n with
    | .ok c' => some c'
    | .error _ => some c
  | .unreg n =>
    match UnregisterHost c n with
    | .ok c' => some c'
    | .error _ => some c
  | .inc n => Inc c n
  | .done n => some (Done c n)

/-- Run a sequence of operations from a starting state. -/
def runOps (c : Consistent) (ops : List Op) : Option Consistent :=
  ops.foldlM applyOp c

/-! ### Spec-side definitions (from the specification's words) -/

/-- Modelled from the spec: the capacity threshold
`ceil(((totalLoad + 1) / hostCount) * (1 + loadBoundFactor))` with
*real-number* division and `loadBoundFactor = 0.25`, as §4.1 of the spec
fixes the intended semantics. Compared against the source's
`checkLoadCapacity`, which truncates the division to an integer first. -/
def specCapQ (total n : Int) : Int :=
  ⌈((total + 1 : ℚ) / (n : ℚ)) * (1 + 1 / 4)⌉

/-- Modelled from the spec: the ring entry a key resolves to — the first
entry whose hash is ≥ the key's hash, wrapping to the entry at index 0
when the key's hash exceeds all entries. -/
def ringSelect (ring : List Nat) (h : Nat) : Nat :=
  match ring.find? (fun v => decide (h ≤ v)) with
  | some v => v
  | none => ring.headD 0

/-- The sum of the registered hosts' load counters. -/
def sumLoads (hosts : List (String × Host)) : Int :=
  (hosts.map (fun p => p.2.loadBound)).sum

/-- A state is well formed when the hash → host map and the ring list the
same virtual nodes, every ring entry resolves to a registered host, every
registered host is reachable through the ring, host names are unique, and
the load accounting is consistent (`totalLoad` nonnegative and at least the
sum of the per-host counters). Every state reachable by the intended
register/Inc/Done discipline satisfies this. -/
def WellFormed (c : Consistent) : Prop :=
  0 ≤ c.totalLoad ∧
  sumLoads c.hosts ≤ c.totalLoad ∧
  c.virt2host.length = c.ring.length ∧
  c.hosts ≠ [] ∧
  (c.hosts.map Prod.fst).Nodup ∧
  (∀ hv ∈ c.ring,
    ((lookupN c.virt2host hv).bind (lookupA c.hosts)).isSome = true) ∧
  (∀ p ∈ c.hosts, ∃ hv ∈ c.ring, lookupN c.virt2host hv = some p.1)

instance (c : Consistent) : Decidable (WellFormed c) := by
  unfold WellFormed; infer_instance

/-! ### Concrete fixtures used to evaluate the model -/

/-- A simple injective hash for driving the model on concrete inputs
(passed to `New` the way a caller would pass a custom hash function). -/
def testHash (s : String) : Nat :=
  s.data.foldl (fun a ch => a * 65536 + ch.toNat) 1

/-- The host name `GetHostCapacious` answers with, if it returns at all. -/
def capaciousResult (c : Consistent) (key : String) (fuel : Nat) :
    Option String :=
  match GetHostCapacious c key fuel with
  | .ret (_, .ok h) => some h
  | _ => none

/-- Three idle hosts registered with one replica each. -/
def threeHosts : Consistent :=
  (runOps (New 1 (some testHash)) [.reg "a", .reg "b", .reg "c"]).getD
    (New 1 (some testHash))

/-- `threeHosts` after the first bounded-load assignment of key "k"
(which resolves to host "a") has been reserved with `Inc`. -/
def threeHosts1 : Consistent := (Inc threeHosts "a").getD threeHosts

/-- A state `checkLoadCapacity` is probed at directly: three hosts, host
"a" carrying load 1, `totalLoad` 1. -/
def capState : Consistent :=
  { replicaNum := 1, totalLoad := 1, hashFunc := testHash
    hosts := [("a", { name := "a", loadBound := 1 }),
              ("b", { name := "b", loadBound := 0 }),
              ("c", { name := "c", loadBound := 0 })]
    virt2host := [], ring := [] }

/-- A corrupted state: the ring and map agree, but host "a"'s counter (10)
is inconsistent with `totalLoad` (0), as after lost updates. -/
def corruptState : Consistent :=
  { replicaNum := 1, totalLoad := 0, hashFunc := testHash
    hosts := [("a", { name := "a", loadBound := 10 })]
    virt2host := [(testHash (hostReplicaKey "a" 0), "a")]
    ring := [testHash (hostReplicaKey "a" 0)] }

/-- One idle registered host, `totalLoad` 0 (a freshly used instance). -/
def oneIdleHost : Consistent :=
  (runOps (New 1 (some testHash)) [.reg "a"]).getD (New 1 (some testHash))

/-- Two idle hosts registered with one replica each. -/
def twoHosts : Consistent :=
  (runOps (New 1 (some testHash)) [.reg "a", .reg "b"]).getD
    (New 1 (some testHash))

/-! ### Supporting lemmas -/

set_option maxRecDepth 40000 in
/-- Sanity check of the embedded SHA-512 against the FIPS test vector for
the empty message: the default hash of `""` is the little-endian reading of
`cf 83 e1 35 7e ef b8 bd`. -/
theorem defaultHashFunc_empty_vector :
    defaultHashFunc "" = 0xbdb8ef7e35e183cf := by decide

/-- The spec-side capacity threshold at `totalLoad = 1`, `hostCount = 3`:
`ceil((2/3) * 1.25) = ceil(5/6) = 1`. -/
theorem specCapQ_one_three : specCapQ 1 3 = 1 := by
  unfold specCapQ
  rw [Int.ceil_eq_iff]
  norm_num

/-- `sort.Search` invariant: with a predicate monotone below `n`, the loop
run on `[i, j)` with enough fuel returns the least satisfying index
(every index below the result falsifies `f`, the result satisfies `f`
unless it is the right boundary). -/
theorem sortSearchAux_spec (f : Nat → Bool) (n : Nat)
    (mono : ∀ k1 k2, k1 ≤ k2 → k2 < n → f k1 = true → f k2 = true) :
    ∀ fuel i j, i ≤ j → j ≤ n → j - i ≤ fuel →
      (∀ k < i, f k = false) → (j < n → f j = true) →
      i ≤ sortSearchAux f fuel i j ∧ sortSearchAux f fuel i j ≤ j ∧
      (∀ k < sortSearchAux f fuel i j, f k = false) ∧
      (sortSearchAux f fuel i j < n → f (sortSearchAux f fuel i j) = true) := by
  intro fuel
  induction fuel with
  | zero =>
    intro i j hij hjn hfuel Hlo Hhi
    have hij' : i = j := by omega
    subst hij'
    exact ⟨le_refl i, le_refl i, Hlo, Hhi⟩
  | succ fuel ih =>
    intro i j hij hjn hfuel Hlo Hhi
    simp only [sortSearchAux]
    by_cases hlt : i < j
    · rw [if_pos hlt]
      have hm1 : i ≤ (i + j) / 2 := by omega
      have hm2 : (i + j) / 2 < j := by omega
      cases hfm : f ((i + j) / 2) with
      | true =>
        simp only [reduceIte]
        have h := ih i ((i + j) / 2) hm1 (by omega) (by omega) Hlo
          (fun _ => hfm)
        exact ⟨h.1, le_trans h.2.1 (by omega), h.2.2⟩
      | false =>
        simp only [Bool.false_eq_true, if_false]
        have Hlo' : ∀ k < (i + j) / 2 + 1, f k = false := by
          intro k hk
          cases hk' : f k with
          | true =>
            have := mono k ((i + j) / 2) (by omega) (by omega) hk'
            rw [this] at hfm
            exact absurd hfm (by simp)
          | false => rfl
        have h := ih ((i + j) / 2 + 1) j (by omega) hjn (by omega) Hlo' Hhi
        exact ⟨le_trans (by omega) h.1, h.2.1, h.2.2⟩
    · rw [if_neg hlt]
      have hij' : i = j := by omega
      subst hij'
      exact ⟨le_refl i, le_refl i, Hlo, Hhi⟩

/-- `List.find?` returns the element at the first index whose entry
satisfies the predicate. -/
theorem find?_eq_of_first (p : α → Bool) :
    ∀ (l : List α) (r : Nat),
      (∀ k < r, ∀ x, l.get? k = some x → p x = false) →
      ∀ x, l.get? r = some x → p x = true → l.find? p = some x := by
  intro l
  induction l with
  | nil => intro r _ x hx; simp at hx
  | cons a t ih =>
    intro r hbefore x hx hpx
    cases r with
    | zero =>
      simp only [List.get?_cons_zero, Option.some.injEq] at hx
      subst hx
      simp [List.find?, hpx]
    | succ r' =>
      have ha : p a = false := hbefore 0 (Nat.succ_pos r') a rfl
      simp only [List.get?_cons_succ] at hx
      simp only [List.find?, ha]
      exact ih r' (fun k hk y hy => hbefore (k + 1) (by omega) y hy) x hx hpx

/-- A nonempty list's first entry through `get?` is its `headD`. -/
theorem get?_zero_eq_headD {α} (l : List α) (hne : l ≠ []) (d : α) :
    l.get? 0 = some (l.headD d) := by
  cases l with
  | nil => exact absurd rfl hne
  | cons a t => rfl

/-- Sorted rings make the `searchKey` predicate monotone. -/
theorem ring_pred_mono (ring : List Nat) (hs : List.Sorted (· ≤ ·) ring)
    (key : Nat) :
    ∀ k1 k2, k1 ≤ k2 → k2 < ring.length →
      decide (key ≤ ring.getD k1 0) = true →
      decide (key ≤ ring.getD k2 0) = true := by
  intro k1 k2 h12 h2 h1
  have h1' : k1 < ring.length := by omega
  rcases Nat.eq_or_lt_of_le h12 with rfl | hlt
  · exact h1
  · have := hs.rel_get_of_lt (a := ⟨k1, h1'⟩) (b := ⟨k2, h2⟩) hlt
    rw [decide_eq_true_iff] at h1 ⊢
    rw [List.getD_eq_getElem ring 0 h1'] at h1
    rw [List.getD_eq_getElem ring 0 h2]
    simp only [List.get_eq_getElem] at this
    exact le_trans h1 this

/-- Bridge between `getD` and `get?`. -/
theorem getD_of_get? {α} (l : List α) (k : Nat) (x d : α)
    (h : l.get? k = some x) : l.getD k d = x := by
  have hk : k < l.length := by
    by_contra hk
    rw [List.get?_eq_none.mpr (by omega)] at h
    exact Option.noConfusion h
  rw [List.getD_eq_getElem l d hk]
  rw [List.get?_eq_get hk] at h
  simpa using h

/-- In-range `get?` in terms of `getD`. -/
theorem get?_getD {α} (l : List α) (i : Nat) (hi : i < l.length) (d : α) :
    l.get? i = some (l.getD i d) := by
  rw [List.get?_eq_get hi, List.getD_eq_getElem l d hi]
  simp [List.get_eq_getElem]

/-- `lookupA` finds exactly the binding of any entry of a map whose keys
are duplicate-free. -/
theorem lookupA_of_mem_nodup {β : Type} :
    ∀ l : List (String × β), (l.map Prod.fst).Nodup →
      ∀ p ∈ l, lookupA l p.1 = some p.2 := by
  intro l
  induction l with
  | nil => intro _ p hp; exact absurd hp (List.not_mem_nil p)
  | cons a t ih =>
    intro hnd p hp
    rw [List.map_cons, List.nodup_cons] at hnd
    rcases List.mem_cons.mp hp with rfl | hp'
    · simp [lookupA]
    · have hne : p.1 ≠ a.1 := by
        intro h
        exact hnd.1 (h ▸ List.mem_map_of_mem Prod.fst hp')
      unfold lookupA
      rw [if_neg hne]
      exact ih hnd.2 p hp'

/-- A nonempty host list has an entry of minimal load. -/
theorem exists_min_host :
    ∀ l : List (String × Host), l ≠ [] →
      ∃ p ∈ l, ∀ q ∈ l, p.2.loadBound ≤ q.2.loadBound := by
  intro l
  induction l with
  | nil => intro h; exact absurd rfl h
  | cons a t ih =>
    intro _
    by_cases ht : t = []
    · subst ht
      refine ⟨a, List.mem_cons_self a [], ?_⟩
      intro q hq
      rcases List.mem_cons.mp hq with rfl | hq'
      · exact le_refl _
      · exact absurd hq' (List.not_mem_nil q)
    · obtain ⟨p, hp, hmin⟩ := ih ht
      by_cases hle : a.2.loadBound ≤ p.2.loadBound
      · refine ⟨a, List.mem_cons_self a t, ?_⟩
        intro q hq
        rcases List.mem_cons.mp hq with rfl | hq'
        · exact le_refl _
        · exact le_trans hle (hmin q hq')
      · refine ⟨p, List.mem_cons_of_mem a hp, ?_⟩
        intro q hq
        rcases List.mem_cons.mp hq with rfl | hq'
        · omega
        · exact hmin q hq'

/-- A pointwise lower bound on the loads bounds their sum from below. -/
theorem length_mul_le_sumLoads (m : Int) :
    ∀ l : List (String × Host), (∀ q ∈ l, m ≤ q.2.loadBound) →
      (l.length : Int) * m ≤ sumLoads l := by
  intro l
  induction l with
  | nil => intro _; simp [sumLoads]
  | cons a t ih =>
    intro h
    have h1 := h a (List.mem_cons_self a t)
    have h2 := ih (fun q hq => h q (List.mem_cons_of_mem a hq))
    unfold sumLoads at h2 ⊢
    simp only [List.map_cons, List.sum_cons, List.length_cons]
    have hexp : (((t.length + 1 : Nat) : Int)) * m
        = (t.length : Int) * m + m := by push_cast; ring
    rw [hexp]
    linarith

/-- With consistent accounting, the minimally loaded host fits under the
code's capacity threshold: its counter is at most the truncated average,
and the threshold exceeds that average by at least one. -/
theorem min_fits_goCap (T S lmin : Int) (n : Nat) (hn : 0 < n)
    (hT : 0 ≤ T) (hS : S ≤ T) (hmin : (n : Int) * lmin ≤ S) :
    lmin + 1 ≤ goCap T n := by
  have hn' : (0 : Int) < (n : Int) := by exact_mod_cast hn
  show lmin + 1 ≤ ceil125
    (if Int.tdiv (T + 1) (n : Int) = 0 then 1 else Int.tdiv (T + 1) (n : Int))
  rw [Int.tdiv_eq_ediv (by omega) (by omega)]
  have hq0 : 0 ≤ (T + 1) / (n : Int) := Int.ediv_nonneg (by omega) (by omega)
  have hlq : lmin ≤ (T + 1) / (n : Int) := by
    rw [Int.le_ediv_iff_mul_le hn']
    calc lmin * (n : Int) = (n : Int) * lmin := mul_comm _ _
      _ ≤ S := hmin
      _ ≤ T + 1 := by omega
  have hm1 : 1 ≤ if (T + 1) / (n : Int) = 0 then 1
      else (T + 1) / (n : Int) := by split <;> omega
  have hlm : lmin ≤ if (T + 1) / (n : Int) = 0 then 1
      else (T + 1) / (n : Int) := by split <;> omega
  unfold ceil125
  rw [Int.fdiv_eq_ediv _ (by omega)]
  rw [Int.le_ediv_iff_mul_le (by omega : (0 : Int) < 4)]
  omega

/-- `checkLoadCapacity` with nonnegative `totalLoad`, a nonempty registry
and a registered candidate: the state is untouched and the answer is the
capacity comparison against `goCap`. -/
theorem checkLoadCapacity_eq (c : Consistent) (h0 : 0 ≤ c.totalLoad)
    (hn : c.hosts.length ≠ 0) (name : String) (h : Host)
    (hl : lookupA c.hosts name = some h) :
    checkLoadCapacity c name =
      some (c, .ok (decide (h.loadBound + 1 ≤
        goCap c.totalLoad c.hosts.length))) := by
  simp only [checkLoadCapacity, if_neg (not_lt.mpr h0), hl]
  rw [if_neg hn]

/-- If some ring position's owner fits under the capacity threshold, the
walk returns a host before the fuel runs out; the fuel need only exceed
the forward wrap-around distance to that accepting position. The state is
threaded unchanged (`totalLoad` is nonnegative, so the clamp never
fires). -/
theorem capaciousLoop_finds (c : Consistent)
    (h0 : 0 ≤ c.totalLoad) (hn : c.hosts.length ≠ 0)
    (hlen : c.virt2host.length = c.ring.length)
    (hres : ∀ i < c.ring.length,
      ∃ name h, lookupN c.virt2host (c.ring.getD i 0) = some name ∧
        lookupA c.hosts name = some h)
    (p : Nat) (hp : p < c.ring.length)
    (hpass : ∀ name h, lookupN c.virt2host (c.ring.getD p 0) = some name →
      lookupA c.hosts name = some h →
      h.loadBound + 1 ≤ goCap c.totalLoad c.hosts.length) :
    ∀ fuel i, i < c.ring.length →
      (if i ≤ p then p - i else c.ring.length - i + p) < fuel →
      ∃ c' name, capaciousLoop fuel c i = .ret (c', .ok name) := by
  intro fuel
  induction fuel with
  | zero =>
    intro i hi hd
    exact absurd hd (Nat.not_lt_zero _)
  | succ fuel ih =>
    intro i hi hd
    obtain ⟨name, h, hlookN, hlookA⟩ := hres i hi
    have hget := get?_getD c.ring i hi 0
    by_cases hb : h.loadBound + 1 ≤ goCap c.totalLoad c.hosts.length
    · -- accepted right here
      have hstep : capaciousLoop (fuel + 1) c i = .ret (c, .ok name) := by
        simp only [capaciousLoop, hget, hlookN, Option.getD_some]
        rw [checkLoadCapacity_eq c h0 hn name h hlookA,
          decide_eq_true hb]
      exact ⟨c, name, hstep⟩
    · -- rejected: one more step, one less distance
      have hip : i ≠ p := by
        intro he
        subst he
        exact hb (hpass name h hlookN hlookA)
      have hstep : capaciousLoop (fuel + 1) c i =
          capaciousLoop fuel c
            (if i + 1 ≥ c.virt2host.length then 0 else i + 1) := by
        simp only [capaciousLoop, hget, hlookN, Option.getD_some]
        rw [checkLoadCapacity_eq c h0 hn name h hlookA,
          decide_eq_false hb]
      rw [hstep, hlen]
      by_cases hiw : i + 1 ≥ c.ring.length
      · rw [if_pos hiw]
        refine ih 0 (by omega) ?_
        have : ¬ i ≤ p ∨ i = p := by omega
        split at hd <;> split <;> omega
      · rw [if_neg hiw]
        refine ih (i + 1) (by omega) ?_
        split at hd <;> split <;> omega

/-! ### Claims -/

/-- C1. The claim states that `UnregisterHost` removes each recomputed
virtual-node hash from both the ring and the hash → host map, so that the
two stay in bijection. The code removes ring entries only (`delHashIndex`
never touches `virt2host`): after registering "a" and "b" (two replicas
each) and unregistering "a", the hash of "a"'s first virtual node is still
a key of the hash → host map although it is gone from the ring and "a" is
no longer registered. -/
theorem unregister_leaves_stale_map_entry :
    (runOps (New 2 (some testHash)) [.reg "a", .reg "b", .unreg "a"]).map
      (fun s => ((lookupN s.virt2host (testHash (hostReplicaKey "a" 0))).isSome,
                 decide (testHash (hostReplicaKey "a" 0) ∈ s.ring),
                 (lookupA s.hosts "a").isSome))
      = some (true, false, false) := by decide

/-- C2. The claim states that `totalLoad` equals the sum of the registered
hosts' counters after every register/unregister/Inc/Done sequence. But
`UnregisterHost` does not subtract the departing host's counter: after
register "a", `Inc "a"`, unregister "a", the code leaves `totalLoad = 1`
while the sum over the (now empty) registry is 0. -/
theorem totalLoad_leaks_on_unregister :
    (runOps (New 1 (some testHash)) [.reg "a", .inc "a", .unreg "a"]).map
      (fun s => (s.totalLoad, sumLoads s.hosts)) = some (1, 0) := by decide

/-- C3. The claim bounds every assigned host's counter by
`ceil(((totalLoad+1)/hostCount) * 1.25)` with real division, computed at
assignment time. With three idle hosts, assigning key "k" twice (each
followed by `Inc`, no `Done`) gives host "a" both times; at the second
assignment `totalLoad = 1` and `hostCount = 3`, so the claimed cap is
`ceil((2/3)*1.25) = 1`, yet "a"'s counter reaches 2: the code's integer
truncation (`(1+1)/3 = 0`, clamped to 1, cap 2) admits the assignment the
claimed bound forbids. -/
theorem bounded_load_claim_violated :
    capaciousResult threeHosts "k" threeHosts.ring.length = some "a" ∧
    capaciousResult threeHosts1 "k" threeHosts1.ring.length = some "a" ∧
    threeHosts1.totalLoad = 1 ∧
    threeHosts1.hosts.length = 3 ∧
    (Inc threeHosts1 "a").map
      (fun s => (lookupA s.hosts "a").map Host.loadBound) = some (some 2) ∧
    ¬ ((2 : Int) ≤ specCapQ 1 3) := by
  refine ⟨by decide, by decide, by decide, by decide, by decide, ?_⟩
  rw [specCapQ_one_three]
  decide

/-- C4. The claim states the capacity check accepts host `H` exactly when
`H.loadBound + 1 ≤ ceil(((totalLoad+1)/hostCount)*(1+loadBoundFactor))`
with floating-point division. At `totalLoad = 1`, three hosts, and
`H.loadBound = 1`, the claimed threshold is `ceil((2/3)*1.25) = 1`, so the
claim rejects `H`; the code's `checkLoadCapacity` truncates `(1+1)/3` to 0,
clamps to 1, gets cap 2, and accepts. -/
theorem capacity_check_uses_integer_division :
    (checkLoadCapacity capState "a").map Prod.snd = some (.ok true) ∧
    ¬ ((1 : Int) + 1 ≤ specCapQ capState.totalLoad capState.hosts.length) := by
  constructor
  · rfl
  · rw [show capState.totalLoad = 1 from rfl,
        show (capState.hosts.length : Int) = 3 from rfl,
        specCapQ_one_three]
    decide

/-- C5. The claim states `GetHost` on an empty ring is explicitly guarded
with a NotFound-style error and never indexes out of bounds. The source has
no guard: on a fresh instance (empty ring) it evaluates `c.ring[idx]` with
`idx = 0` on an empty slice — an index-out-of-range panic, modelled by the
`none` result — for every key. -/
theorem getHost_panics_on_empty_ring :
    (New 2 (some testHash)).ring = [] ∧
    ∀ key, GetHost (New 2 (some testHash)) key = none :=
  ⟨rfl, fun _ => rfl⟩

/-- C7. The claim states `Inc` on an unregistered name is a no-op or a
defined error and never fails abnormally. The source dereferences
`c.hosts[hostName].LoadBound` without an existence check: on a fresh
instance, `Inc "a"` is a nil-pointer dereference panic (the `none`
result), not a no-op. -/
theorem inc_panics_on_unknown_host :
    (New 2 (some testHash)).hosts = [] ∧
    Inc (New 2 (some testHash)) "a" = none :=
  ⟨rfl, rfl⟩

/-- C9 counterexample. The claim calls `MaxLoad` a read-only snapshot. On a
state with one idle host and `totalLoad = 0`, calling `MaxLoad` writes
`totalLoad = 1` into the receiver: the returned state differs from the
argument. -/
theorem maxLoad_writes_totalLoad :
    oneIdleHost.totalLoad = 0 ∧ (MaxLoad oneIdleHost).2.totalLoad = 1 := by
  decide

/-- C9 amended. `GetLoads` and `Hosts` are read-only; `MaxLoad` leaves the
state unchanged except that it sets `totalLoad` to 1 whenever it was 0. -/
theorem snapshots_frame :
    ∀ c : Consistent,
      (GetLoads c).2 = c ∧ (Hosts c).2 = c ∧
      (MaxLoad c).2 = if c.totalLoad = 0 then { c with totalLoad := 1 }
                      else c := by
  intro c
  refine ⟨rfl, rfl, ?_⟩
  unfold MaxLoad
  by_cases h : c.totalLoad = 0 <;>
    simp only [h, if_true, if_false, reduceIte] <;>
    by_cases h2 : ({ c with totalLoad := 1 } : Consistent).hosts.length = 0 <;>
    by_cases h3 : c.hosts.length = 0 <;>
    simp_all

/-- C10. `New` clamps a non-positive replica count to 10, substitutes
`defaultHashFunc` (first 8 bytes of the SHA-512 digest, little endian) for
a nil hash function, and starts with `totalLoad` 0 and no registered hosts
(empty registry, map, and ring). -/
theorem new_clamps_and_starts_empty (n : Int) (hf : Option (String → Nat))
    (hn : n ≤ 0) :
    (New n hf).replicaNum = 10 ∧
    (New n none).hashFunc = defaultHashFunc ∧
    (New n hf).totalLoad = 0 ∧
    (New n hf).hosts = [] ∧
    (New n hf).ring = [] ∧
    (New n hf).virt2host = [] := by
  unfold New
  simp [if_pos hn]

/-- Witness for C10 at `n = 0`, `hashFunc = nil`. -/
theorem new_clamps_and_starts_empty_witness :
    ((0 : Int) ≤ 0) ∧
    ((New 0 none).replicaNum = 10 ∧
     (New 0 none).hashFunc = defaultHashFunc ∧
     (New 0 none).totalLoad = 0 ∧
     (New 0 none).hosts = [] ∧
     (New 0 none).ring = [] ∧
     (New 0 none).virt2host = []) :=
  ⟨le_refl 0, new_clamps_and_starts_empty 0 none (le_refl 0)⟩

/-- C6 counterexample. The claim asserts a hard step cap equal to the ring
length is enforced so the walk cannot run forever even under a corrupted
state. On `corruptState` (counters inconsistent with `totalLoad`), the walk
is still running after ring-length steps — and after 100 steps, 100 times a
full traversal — because the source's loop has no step cap at all. -/
theorem capacious_walk_unbounded_on_corrupt_state :
    corruptState.ring.length = 1 ∧
    GetHostCapacious corruptState "k" corruptState.ring.length = .diverges ∧
    GetHostCapacious corruptState "k" 100 = .diverges :=
  ⟨rfl, rfl, rfl⟩

/-- C8. On a sorted, non-empty ring, `GetHost` returns the host owning the
first ring entry whose hash is ≥ the key's hash, wrapping to the entry at
index 0 when the key's hash exceeds all entries (`ringSelect` is that
spec-side selection rule, the owner is read off the hash → host map). The
result is a pure function of the key and the ring state, so repeated calls
agree. -/
theorem getHost_first_entry_at_or_after (c : Consistent)
    (hs : List.Sorted (· ≤ ·) c.ring) (hne : c.ring ≠ []) (key : String) :
    GetHost c key = some ((lookupN c.virt2host
      (ringSelect c.ring (c.hashFunc key))).getD "") := by
  have hn0 : 0 < c.ring.length := List.length_pos.mpr hne
  obtain ⟨-, hrle, hbelow, hat⟩ := sortSearchAux_spec
    (fun i => decide (c.hashFunc key ≤ c.ring.getD i 0)) c.ring.length
    (ring_pred_mono c.ring hs (c.hashFunc key))
    c.ring.length 0 c.ring.length (Nat.zero_le _) (le_refl _) (by omega)
    (fun k hk => absurd hk (Nat.not_lt_zero k))
    (fun hh => absurd hh (lt_irrefl _))
  show (c.ring.get? (searchKey c (c.hashFunc key))).map _ = _
  have hskey : searchKey c (c.hashFunc key) =
      if sortSearchAux (fun i => decide (c.hashFunc key ≤ c.ring.getD i 0))
          c.ring.length 0 c.ring.length ≥ c.ring.length
      then 0
      else sortSearchAux (fun i => decide (c.hashFunc key ≤ c.ring.getD i 0))
          c.ring.length 0 c.ring.length := rfl
  by_cases hcase : sortSearchAux
      (fun i => decide (c.hashFunc key ≤ c.ring.getD i 0))
      c.ring.length 0 c.ring.length < c.ring.length
  · -- the binary search found an entry ≥ the key's hash: no wrap
    rw [hskey, if_neg (by omega)]
    obtain ⟨x, hx⟩ : ∃ x, c.ring.get? (sortSearchAux
        (fun i => decide (c.hashFunc key ≤ c.ring.getD i 0))
        c.ring.length 0 c.ring.length) = some x := by
      rw [List.get?_eq_get hcase]; exact ⟨_, rfl⟩
    have hfind : c.ring.find? (fun v => decide (c.hashFunc key ≤ v)) =
        some x := by
      refine find?_eq_of_first _ c.ring _ ?_ x hx ?_
      · intro k hk y hy
        have hb := hbelow k hk
        rwa [getD_of_get? c.ring k y 0 hy] at hb
      · have hb := hat hcase
        rwa [getD_of_get? c.ring _ x 0 hx] at hb
    rw [hx]
    unfold ringSelect
    rw [hfind]
    rfl
  · -- every entry's hash is below the key's: wrap to index 0
    rw [hskey, if_pos (by omega)]
    have hfind : c.ring.find? (fun v => decide (c.hashFunc key ≤ v)) =
        none := by
      rw [List.find?_eq_none]
      intro x hxmem
      obtain ⟨k, hk⟩ := List.mem_iff_get?.mp hxmem
      have hklt : k < c.ring.length := by
        by_contra hkge
        rw [List.get?_eq_none.mpr (by omega)] at hk
        exact Option.noConfusion hk
      have hb := hbelow k (by omega)
      rw [getD_of_get? c.ring k x 0 hk] at hb
      simp [hb]
    rw [get?_zero_eq_headD c.ring hne 0]
    unfold ringSelect
    rw [hfind]
    rfl

/-- C6 amended. On every well-formed state (ring and hash → host map
aligned, every ring entry resolving to a registered host, every registered
host reachable through the ring, accounting consistent) the walk of
`GetHostCapacious` terminates within one full traversal — fuel equal to the
ring length suffices and the call returns a host — because the minimally
loaded host always fits under the capacity threshold. The source enforces
no hard step cap, so this bound does not extend to corrupted states (see
the C6 counterexample). -/
theorem capacious_returns_within_one_traversal (c : Consistent)
    (hwf : WellFormed c) (key : String) :
    ∃ c' name,
      GetHostCapacious c key c.ring.length = .ret (c', .ok name) := by
  obtain ⟨h0, hS, hlen, hne, hnd, hres, hreach⟩ := hwf
  have hn : c.hosts.length ≠ 0 :=
    fun h => hne (List.eq_nil_of_length_eq_zero h)
  -- the minimally loaded host and its ring position
  obtain ⟨pm, hpmem, hmin⟩ := exists_min_host c.hosts hne
  obtain ⟨hv, hhv, hlookm⟩ := hreach pm hpmem
  obtain ⟨p, hgetp⟩ := List.mem_iff_get?.mp hhv
  have hp : p < c.ring.length := by
    by_contra hple
    rw [List.get?_eq_none.mpr (by omega)] at hgetp
    exact Option.noConfusion hgetp
  have hrlen : 0 < c.ring.length := by omega
  have hgd : c.ring.getD p 0 = hv := getD_of_get? c.ring p hv 0 hgetp
  have hlookup_pm : lookupA c.hosts pm.1 = some pm.2 :=
    lookupA_of_mem_nodup c.hosts hnd pm hpmem
  -- every ring position resolves to a registered host
  have hres' : ∀ i < c.ring.length, ∃ name h,
      lookupN c.virt2host (c.ring.getD i 0) = some name ∧
      lookupA c.hosts name = some h := by
    intro i hi
    have hmem : c.ring.getD i 0 ∈ c.ring :=
      List.get?_mem (get?_getD c.ring i hi 0)
    have hiso := hres _ hmem
    cases hl1 : lookupN c.virt2host (c.ring.getD i 0) with
    | none => rw [hl1] at hiso; simp at hiso
    | some nm =>
      rw [hl1] at hiso
      simp only [Option.some_bind] at hiso
      cases hl2 : lookupA c.hosts nm with
      | none => rw [hl2] at hiso; simp at hiso
      | some hh => exact ⟨nm, hh, rfl, hl2⟩
  -- the minimal host's position passes the capacity check
  have hpass : ∀ name h,
      lookupN c.virt2host (c.ring.getD p 0) = some name →
      lookupA c.hosts name = some h →
      h.loadBound + 1 ≤ goCap c.totalLoad c.hosts.length := by
    intro name h hlk hla
    rw [hgd, hlookm] at hlk
    cases hlk
    rw [hlookup_pm] at hla
    cases hla
    exact min_fits_goCap c.totalLoad (sumLoads c.hosts) pm.2.loadBound
      c.hosts.length (by omega) h0 hS
      (length_mul_le_sumLoads _ c.hosts (fun q hq => hmin q hq))
  -- the empty-map guard does not fire, so the call is the walk itself
  have hvne : ¬ c.virt2host.length = 0 := by omega
  have hgh : GetHostCapacious c key c.ring.length =
      capaciousLoop c.ring.length c (searchKey c (c.hashFunc key)) := by
    unfold GetHostCapacious
    rw [if_neg hvne]
  rw [hgh]
  have hik : searchKey c (c.hashFunc key) < c.ring.length := by
    show (if sortSearch (fun i => decide (c.hashFunc key ≤ c.ring.getD i 0)) 0
        c.ring.length ≥ c.ring.length then 0
      else sortSearch (fun i => decide (c.hashFunc key ≤ c.ring.getD i 0)) 0
        c.ring.length) < c.ring.length
    split <;> omega
  exact capaciousLoop_finds c h0 hn hlen hres' p hp hpass
    c.ring.length (searchKey c (c.hashFunc key)) hik (by split <;> omega)

/-- Witness for C6 on a two-host well-formed state and key "k". -/
theorem capacious_returns_within_one_traversal_witness :
    WellFormed twoHosts ∧
    (∃ c' name, GetHostCapacious twoHosts "k" twoHosts.ring.length =
      .ret (c', .ok name)) :=
  ⟨by decide, capacious_returns_within_one_traversal twoHosts (by decide) "k"⟩

/-- Witness for C8 on a two-host ring and key "k". -/
theorem getHost_first_entry_at_or_after_witness :
    (List.Sorted (· ≤ ·) twoHosts.ring ∧ twoHosts.ring ≠ []) ∧
    GetHost twoHosts "k" = some ((lookupN twoHosts.virt2host
      (ringSelect twoHosts.ring (twoHosts.hashFunc "k"))).getD "") :=
  ⟨⟨by decide, by decide⟩,
   getHost_first_entry_at_or_after twoHosts (by decide) (by decide) "k"⟩

end ConsistentHashing
